import Mathlib

/-!
Verification of the PheKnowLator triple-graph construction and normalization
engine against its natural-language specification.

The repository ships (under `src/`) the unit-test suite
`src/tests/test_kg_utils.py` for the `pkt_kg.utils` knowledge-graph helpers,
and the REST collaborator `src/scripts/python/NCBO_rest_api.py`.  The
`pkt_kg/utils` implementation file itself is not in `src/`, so the
graph-utility operations below are modelled from the specification
(doc comments say so explicitly), with the shipped unit tests used as the
authoritative record of concrete input/output behaviour.  The REST script is
embedded directly from its source.

Graphs are shallowly embedded as lists of string triples with rdflib set
semantics; Python strings become `String`, Python ints become `Nat`, and
Python exceptions become `Except` values.
-/

set_option maxRecDepth 2048

namespace PKT

/-- An RDF-style triple: subject, predicate, object, each identified by a
string (an IRI, a blank-node label, or a literal lexical form). -/
structure Triple where
  s : String
  p : String
  o : String
deriving DecidableEq

/-- Modelled from the spec: `adds_edges_to_graph` from `pkt_kg/utils`
(absent from `src/`, only its test `test_adds_edges_to_graph` is shipped).
Bulk triple insertion with rdflib set semantics: each edge of the list is
added to the graph, and adding a pre-existing triple is a no-op. -/
def adds_edges_to_graph (graph : List Triple) (edge_list : List Triple) : List Triple :=
  edge_list.foldl (fun acc t => if t ∈ acc then acc else acc ++ [t]) graph

/-- Modelled from the spec: `remove_edges_from_graph` from `pkt_kg/utils`
(absent from `src/`, only its test `test_remove_edges_from_graph` is
shipped).  Bulk triple deletion with rdflib set semantics: each edge of the
list is removed from the graph, and removing an absent triple is a no-op. -/
def remove_edges_from_graph (graph : List Triple) (edge_list : List Triple) : List Triple :=
  edge_list.foldl (fun acc t => acc.filter (fun u => u ≠ t)) graph

/-- Lexicographic less-or-equal on character lists, via code points. -/
def charsLe : List Char → List Char → Bool
  | [], _ => true
  | _ :: _, [] => false
  | a :: as, b :: bs =>
    if a.toNat < b.toNat then true
    else if b.toNat < a.toNat then false
    else charsLe as bs

/-- Lexicographic less-or-equal on strings, via their character data. -/
def strLe (a b : String) : Bool :=
  charsLe a.data b.data

/-- The ordering relation used to fix a deterministic output order. -/
def strLeRel (a b : String) : Prop :=
  strLe a b = true

instance : DecidableRel strLeRel :=
  fun a b => instDecidableEqBool (strLe a b) true

instance : IsTotal String strLeRel where
  total a b := by
    unfold strLeRel strLe
    generalize a.data = as
    generalize b.data = bs
    induction as generalizing bs with
    | nil => exact Or.inl rfl
    | cons x xs ih =>
      cases bs with
      | nil => exact Or.inr rfl
      | cons y ys =>
        by_cases h1 : x.toNat < y.toNat
        · left
          simp [charsLe, h1]
        · by_cases h2 : y.toNat < x.toNat
          · right
            simp [charsLe, h2]
          · rcases ih ys with h | h
            · left
              simp [charsLe, h1, h2, h]
            · right
              simp [charsLe, h1, h2, h]

instance : IsTrans String strLeRel where
  trans a b c hab hbc := by
    unfold strLeRel strLe at *
    revert hab hbc
    generalize a.data = as
    generalize b.data = bs
    generalize c.data = cs
    intro hab hbc
    induction as generalizing bs cs with
    | nil => rfl
    | cons x xs ih =>
      cases bs with
      | nil => exact absurd hab (by simp [charsLe])
      | cons y ys =>
        cases cs with
        | nil => exact absurd hbc (by simp [charsLe])
        | cons z zs =>
          by_cases hxy : x.toNat < y.toNat
          · by_cases hyz : y.toNat < z.toNat
            · simp [charsLe, show x.toNat < z.toNat by omega]
            · by_cases hzy : z.toNat < y.toNat
              · exact absurd hbc (by simp [charsLe, hyz, hzy])
              · simp [charsLe, show x.toNat < z.toNat by omega]
          · by_cases hyx : y.toNat < x.toNat
            · exact absurd hab (by simp [charsLe, hxy, hyx])
            · by_cases hyz : y.toNat < z.toNat
              · simp [charsLe, show x.toNat < z.toNat by omega]
              · by_cases hzy : z.toNat < y.toNat
                · exact absurd hbc (by simp [charsLe, hyz, hzy])
                · have hab2 : charsLe xs ys = true := by
                    simpa [charsLe, hxy, hyx] using hab
                  have hbc2 : charsLe ys zs = true := by
                    simpa [charsLe, hyz, hzy] using hbc
                  simp [charsLe, show ¬x.toNat < z.toNat by omega,
                    show ¬z.toNat < x.toNat by omega, ih ys zs hab2 hbc2]

instance : IsAntisymm String strLeRel where
  antisymm a b hab hba := by
    unfold strLeRel strLe at hab hba
    apply String.ext
    revert hab hba
    generalize a.data = as
    generalize b.data = bs
    intro hab hba
    induction as generalizing bs with
    | nil =>
      cases bs with
      | nil => rfl
      | cons y ys => exact absurd hba (by simp [charsLe])
    | cons x xs ih =>
      cases bs with
      | nil => exact absurd hab (by simp [charsLe])
      | cons y ys =>
        by_cases h1 : x.toNat < y.toNat
        · exact absurd hba (by simp [charsLe, h1, show ¬y.toNat < x.toNat by omega])
        · by_cases h2 : y.toNat < x.toNat
          · exact absurd hab (by simp [charsLe, h1, h2])
          · have hxy : x = y := by
              have hn : x.toNat = y.toNat := by omega
              calc x = Char.ofNat x.toNat := (Char.ofNat_toNat x).symm
                _ = Char.ofNat y.toNat := by rw [hn]
                _ = y := Char.ofNat_toNat y
            subst hxy
            have hab2 : charsLe xs ys = true := by simpa [charsLe] using hab
            have hba2 : charsLe ys xs = true := by simpa [charsLe] using hba
            exact congrArg (List.cons x) (ih ys hab2 hba2)

/-- Canonical set presentation of a list of strings: sort by the
lexicographic order, then remove duplicates.  Used by the modelled
traversal utilities to return the "sorted, duplicate-free" sequences the
spec requires. -/
def sortDedup (l : List String) : List String :=
  (List.insertionSort strLeRel l).dedup

/-- The rdfs:subClassOf predicate IRI, the designated "is-subclass-of"
relation followed by the ancestor resolver. -/
def rdfsSubClassOf : String := "http://www.w3.org/2000/01/rdf-schema#subClassOf"

/-- The OBO namespace IRI stem used by the knowledge-graph utilities. -/
def obo : String := "http://purl.obolibrary.org/obo/"

/-- Whether an identifier is URI-shaped, i.e. starts with "http". -/
def isHttpId (x : String) : Bool :=
  "http".data.isPrefixOf x.data

/-- Modelled from the spec and the shipped test
`test_finds_class_ancestors_bad_format`: how `gets_class_ancestors`
(absent from `src/`) treats a supplied class identifier.  A URI-shaped
identifier is used as-is; per the test, a bare local fragment (such as
"SO_0000348") is resolved by prepending the OBO namespace stem before the
traversal (the test expects full OBO URIs back from a bare-fragment
input). -/
def normalizeClassId (x : String) : String :=
  if isHttpId x then x else obo ++ x

/-- The direct superclasses of a node: objects of the rdfs:subClassOf
triples whose subject is the node. -/
def supers (g : List Triple) (x : String) : List String :=
  g.flatMap (fun t => if t.s = x ∧ t.p = rdfsSubClassOf then [t.o] else [])

/-- One round of the ancestor traversal: keep the current set and add every
direct superclass of a member. -/
def ancStep (g : List Triple) (s : List String) : List String :=
  s ++ s.flatMap (supers g)

/-- Modelled from the spec: `gets_class_ancestors` from `pkt_kg/utils`
(absent from `src/`; its tests `test_finds_class_ancestors`,
`test_finds_class_ancestors_bad_format` and `test_finds_class_ancestors_none`
are shipped).  For each supplied class the traversal follows
rdfs:subClassOf edges outward transitively, collecting every reachable
class plus the (normalized) starting class itself; iterating the expansion
step `length g + 1` times is cycle-safe and reaches every superclass
chain expressible in the graph.  An empty class set returns an empty list
immediately; otherwise the result is sorted and duplicate-free. -/
def gets_class_ancestors (graph : List Triple) (class_set : List String) : List String :=
  if class_set = [] then []
  else sortDedup ((ancStep graph)^[graph.length + 1] (class_set.map normalizeClassId))

/-- Modelled from the spec words of claim C2 only (the refinement target):
the same traversal but with every supplied identifier processed by
identity, no prefix silently assumed.  Compared against
`gets_class_ancestors` to settle C2. -/
def gets_class_ancestors_by_identity (graph : List Triple) (class_set : List String) :
    List String :=
  if class_set = [] then []
  else sortDedup ((ancStep graph)^[graph.length + 1] class_set)

/-- The two-step subclass chain used by the shipped ancestor tests:
SO_0000348 is-subclass-of SO_0000400 is-subclass-of SO_0000443. -/
def chainG : List Triple :=
  [⟨"http://purl.obolibrary.org/obo/SO_0000348", rdfsSubClassOf,
    "http://purl.obolibrary.org/obo/SO_0000400"⟩,
   ⟨"http://purl.obolibrary.org/obo/SO_0000400", rdfsSubClassOf,
    "http://purl.obolibrary.org/obo/SO_0000443"⟩]

/-- The nodes of a graph: every subject and object of a triple, in triple
order (predicates are edge labels, not nodes). -/
def nodesOf (g : List Triple) : List String :=
  g.flatMap (fun t => [t.s, t.o])

/-- One assignment step of the integer mapper: if the node already has an
integer the map is unchanged, otherwise it receives the next unused
integer (the current size of the map). -/
def addNode (m : List (String × Nat)) (n : String) : List (String × Nat) :=
  if n ∈ m.map Prod.fst then m else m ++ [(n, m.length)]

/-- Subject first, then object, for one triple. -/
def intMapStep (m : List (String × Nat)) (t : Triple) : List (String × Nat) :=
  addNode (addNode m t.s) t.o

/-- Modelled from the spec: the in-memory identifier-to-integer map built
by `maps_node_ids_to_integers` from `pkt_kg/utils` (absent from `src/`,
only its test `test_maps_node_ids_to_integers` is shipped).  Walks every
triple in the graph's fixed order and assigns the next unused integer
(monotonically increasing from 0, first-seen order) to each subject and
object node not yet mapped.  The file-writing side effects of the Python
function are outside the shallow embedding. -/
def maps_node_ids_to_integers (graph : List Triple) : List (String × Nat) :=
  graph.foldl intMapStep []

/-- A one-triple graph used to witness the integer-mapper properties. -/
def tripleG0 : List Triple := [⟨"a", "p", "b"⟩]

/-- The edge-information record consumed by the node classifier: the two
endpoints' declared kind tags (n1, n2), their raw local identifiers
(edges), and the namespace prefix to prepend per endpoint (uri). -/
structure EdgeInfo where
  n1 : String
  n2 : String
  edges : List String
  uri : List String
deriving DecidableEq

/-- The classifier's output record: a class slot and an entity slot pair,
unused slots being none. -/
structure NodeTypeRes where
  cls1 : Option String
  cls2 : Option String
  ent1 : Option String
  ent2 : Option String
deriving DecidableEq

/-- Modelled from the spec: `finds_node_type` from `pkt_kg/utils` (absent
from `src/`, only its test `test_finds_node_type` is shipped).  Each
endpoint's full identifier is its prefix concatenated with its local id;
an endpoint whose kind tag is "class" contributes a class value, any
other tag contributes an entity value.  Per the spec's worked example and
all five cases of the shipped test, class values fill cls1 then cls2 in
endpoint order and entity values fill ent1 then ent2 in endpoint order
(a lone class value always lands in cls1, even when it comes from the
second endpoint).  Fails with a ValueError when fewer than two endpoints
are supplied.  The record below pairs each endpoint's kind tag with its
full identifier (prefix concatenated with local id), in endpoint order;
`finds_node_type` then distributes these into the four slots. -/
def endpointPairs (e : EdgeInfo) : List (String × String) :=
  [(e.n1, e.uri.getD 0 "" ++ e.edges.getD 0 ""),
   (e.n2, e.uri.getD 1 "" ++ e.edges.getD 1 "")]

/-- The class values contributed by the two endpoints, in endpoint order. -/
def clsVals (e : EdgeInfo) : List String :=
  (endpointPairs e).filterMap (fun q => if q.1 = "class" then some q.2 else none)

/-- The entity values contributed by the two endpoints, in endpoint order. -/
def entVals (e : EdgeInfo) : List String :=
  (endpointPairs e).filterMap (fun q => if q.1 = "class" then none else some q.2)

def finds_node_type (e : EdgeInfo) : Except String NodeTypeRes :=
  if e.edges.length < 2 then Except.error "ValueError"
  else Except.ok ⟨(clsVals e)[0]?, (clsVals e)[1]?, (entVals e)[0]?, (entVals e)[1]?⟩

/-- The subclass-class input of the shipped test and of the spec's worked
example (a gene entity linked to a DOID disease class). -/
def edgeInfo3 : EdgeInfo :=
  ⟨"subclass", "class", ["2", "DOID_0110035"],
   ["https://www.ncbi.nlm.nih.gov/gene/", "http://purl.obolibrary.org/obo/"]⟩

/-- The class-class input of the shipped test. -/
def edgeInfo5 : EdgeInfo :=
  ⟨"class", "class", ["DOID_162", "DOID_0110035"],
   ["http://purl.obolibrary.org/obo/", "http://purl.obolibrary.org/obo/"]⟩

/-- The state of an ontology file on disk, as the statistics reporter can
observe it: missing, present but empty, or well-formed with a graph. -/
inductive OntFile where
  | absent
  | emptyFile
  | wellFormed (g : List Triple)
deriving DecidableEq

/-- A Python argument for a file-path parameter: either an actual string
or a non-string value (the shipped test passes a list of strings). -/
inductive PyArg where
  | strArg (path : String)
  | listArg (paths : List String)
deriving DecidableEq

/-- The distinct Python error classes the ontology-file operations raise:
TypeError, OSError and ValueError. -/
inductive PyErr where
  | typeErr
  | osErr
  | valueErr
deriving DecidableEq

/-- Modelled from the spec: `gets_ontology_statistics` from `pkt_kg/utils`
(absent from `src/`, only its test `test_gets_ontology_statistics` is
shipped).  Raises a TypeError for a non-string file path, an OSError for
a file that does not exist, and a ValueError for an empty ontology file
(rather than treating it as an empty graph); on a well-formed existing
file it computes the statistics summary with no error.  The file system
is an explicit argument mapping each path to its state. -/
def gets_ontology_statistics (file_location : PyArg) (fs : String → OntFile) :
    Except PyErr String :=
  match file_location with
  | PyArg.listArg _ => Except.error PyErr.typeErr
  | PyArg.strArg path =>
    match fs path with
    | OntFile.absent => Except.error PyErr.osErr
    | OntFile.emptyFile => Except.error PyErr.valueErr
    | OntFile.wellFormed g =>
      Except.ok ("Graph Stats: " ++ toString g.length ++ " triples")

/-- A small file system mirroring the shipped test fixtures: one good
ontology file, one empty ontology file, everything else missing. -/
def demoFs : String → OntFile :=
  fun p =>
    if p = "so_with_imports.owl" then OntFile.wellFormed tripleG0
    else if p = "empty_hp_with_imports.owl" then OntFile.emptyFile
    else OntFile.absent

/-- An HTTP error carrying its status code. -/
structure HttpErr where
  code : Nat
deriving DecidableEq

/-- The effectful collaborators of `gets_json_results_from_api_call`, each
given by its outcome: the initial rate-limiting sleep, the opener
construction, the retry-pause sleep of the except branch, and the actual
HTTP fetch of the URL.  Only the fetch performs an HTTP request. -/
structure ApiEnv where
  sleepShort : Except HttpErr Unit
  buildOpener : Except HttpErr Unit
  sleepRetry : Except HttpErr Unit
  fetch : Except HttpErr String

/-- The body of the except-HTTPError branch in
`src/scripts/python/NCBO_rest_api.py` (`gets_json_results_from_api_call`):
pause, rebuild the opener, then fall through to the fetch; an error
raised inside the handler propagates. -/
def apiExceptBranch (env : ApiEnv) : Bool × Except HttpErr String :=
  match env.sleepRetry with
  | Except.error e => (true, Except.error e)
  | Except.ok _ =>
    match env.buildOpener with
    | Except.error e => (true, Except.error e)
    | Except.ok _ => (true, env.fetch)

/-- Embedding of `gets_json_results_from_api_call` from
`src/scripts/python/NCBO_rest_api.py`: the try block runs the sleep and
the opener construction; an HTTPError from either enters the except
branch; the fetch `opener.open(url)` runs after the try/except and is not
guarded by it.  The Boolean records whether the except branch ran. -/
def gets_json_results_from_api_call (env : ApiEnv) : Bool × Except HttpErr String :=
  match env.sleepShort with
  | Except.error _ => apiExceptBranch env
  | Except.ok _ =>
    match env.buildOpener with
    | Except.error _ => apiExceptBranch env
    | Except.ok _ => (false, env.fetch)

/-- An environment in which neither the sleep nor the opener construction
raises and the fetch fails with HTTP 500. -/
def apiEnv0 : ApiEnv :=
  ⟨Except.ok (), Except.ok (), Except.ok (), Except.error ⟨500⟩⟩

/-- A Python strided slice in progress: take the head when the skip
counter is 0 (then restart the counter at step - 1), otherwise skip.
`sliceStep n l 0` is the Python slice l[0::n] for n at least 1. -/
def sliceStep (n : Nat) : List Nat → Nat → List Nat
  | [], _ => []
  | a :: rest, 0 => a :: sliceStep n rest (n - 1)
  | _ :: rest, c + 1 => sliceStep n rest c

/-- Embedding of `total_pages = range(1, api_results[pageCount] - 1)` from
`extracts_mapping_data` in `src/scripts/python/NCBO_rest_api.py`: the
pages 1 .. pageCount - 2. -/
def totalPages (pageCount : Nat) : List Nat :=
  List.range' 1 (pageCount - 2)

/-- Python's round() applied to len/1000.0, i.e. round half to even.
This is exact for any realistic len: k + 1/2 is exactly representable as
a double, and any other value of len/1000 is farther from a half-integer
than the rounding error of the division. -/
def pyRound1000 (len : Nat) : Nat :=
  if len % 1000 < 500 then len / 1000
  else if 500 < len % 1000 then len / 1000 + 1
  else if len / 1000 % 2 = 0 then len / 1000 else len / 1000 + 1

/-- Embedding of `n = round(len(total_pages)/float(1000))` from
`extracts_mapping_data`. -/
def stride (pageCount : Nat) : Nat :=
  pyRound1000 (totalPages pageCount).length

/-- Embedding of one entry `total_pages[i::n]` of the batch list built by
`extracts_mapping_data`. -/
def pyBatch (pageCount i : Nat) : List Nat :=
  sliceStep (stride pageCount) ((totalPages pageCount).drop i) 0

/-- Embedding of `batches = [total_pages[i::n] for i in range(1000)]`
from `extracts_mapping_data`.  When the computed stride n is zero (fewer
than about 500 pages) the first slice raises "ValueError: slice step
cannot be zero" in Python, embedded as the error case. -/
def batchesE (pageCount : Nat) : Except String (List (List Nat)) :=
  if stride pageCount = 0 then
    Except.error "ValueError: slice step cannot be zero"
  else Except.ok ((List.range 1000).map (fun i => pyBatch pageCount i))

/-- Embedding of the loop header
`for batch in tqdm(range(0, len(batches) - 1))` of
`extracts_mapping_data`: the batch indices actually processed. -/
def processedIdxs (batches : List (List Nat)) : List Nat :=
  List.range (batches.length - 1)

/-- The page numbers `extracts_mapping_data` actually fetches and writes:
for every processed batch index, each page p of that batch is requested
as `?page=p+1`. -/
def fetchedPagesList (batches : List (List Nat)) : List Nat :=
  (processedIdxs batches).flatMap
    (fun b => (batches.getD b []).map (fun p => p + 1))

/-- The undirected neighbors of a node: objects of triples having it as
subject, and subjects of triples having it as object (edge direction
ignored). -/
def nbrs (g : List Triple) (x : String) : List String :=
  g.flatMap (fun t =>
    (if t.s = x then [t.o] else []) ++ (if t.o = x then [t.s] else []))

/-- One round of the undirected closure: keep the current nodes and add
every neighbor of a current node. -/
def undirStep (g : List Triple) (s : List String) : List String :=
  s ++ s.flatMap (nbrs g)

/-- The weakly-connected component of a node: 2·|g| rounds of the
undirected closure, which suffices to stabilize because the node set has
at most 2·|g| members. -/
def comp (g : List Triple) (x : String) : List String :=
  (undirStep g)^[2 * g.length] [x]

/-- Modelled from the spec: `connected_components` from `pkt_kg/utils`
(absent from `src/`; its tests `test_connected_components_true` and
`test_connected_components_false` are shipped).  Treats the graph as
undirected and returns the list of node sets of the weakly-connected
components, each as a sorted duplicate-free list, without repetition. -/
def connected_components (graph : List Triple) : List (List String) :=
  ((nodesOf graph).map (fun x => sortDedup (comp graph x))).dedup

/-- The two-disjoint-edges example of the claim: edges (a,b) and (c,d)
over four distinct nodes. -/
def twoEdgeG : List Triple := [⟨"a", "p", "b"⟩, ⟨"c", "q", "d"⟩]

/-- Undirected reachability: the reflexive closure of stepping to a
neighbor, i.e. connection by an undirected path. -/
inductive Reach (g : List Triple) : String → String → Prop
  | refl (x : String) : Reach g x x
  | tail {x y z : String} : Reach g x y → z ∈ nbrs g y → Reach g x z

/-- The finite set of nodes collected after k closure rounds from x. -/
def uiterF (g : List Triple) (x : String) (k : Nat) : Finset String :=
  ((undirStep g)^[k] [x]).toFinset

end PKT

namespace PKT

theorem mem_sortDedup {a : String} {l : List String} : a ∈ sortDedup l ↔ a ∈ l := by
  unfold sortDedup
  rw [List.mem_dedup]
  exact (List.perm_insertionSort _ l).mem_iff

theorem sorted_sortDedup (l : List String) :
    List.Sorted strLeRel (sortDedup l) :=
  List.Pairwise.sublist (List.dedup_sublist _) (List.sorted_insertionSort _ l)

theorem nodup_sortDedup (l : List String) : (sortDedup l).Nodup :=
  List.nodup_dedup _

theorem sortDedup_eq_of_mem_iff {l1 l2 : List String}
    (h : ∀ a, a ∈ l1 ↔ a ∈ l2) : sortDedup l1 = sortDedup l2 := by
  refine List.eq_of_perm_of_sorted ?_ (sorted_sortDedup l1) (sorted_sortDedup l2)
  refine (List.perm_ext_iff_of_nodup (nodup_sortDedup l1) (nodup_sortDedup l2)).mpr ?_
  intro a
  rw [mem_sortDedup, mem_sortDedup]
  exact h a

theorem sortDedup_ne_nil_of_mem {a : String} {l : List String} (h : a ∈ l) :
    sortDedup l ≠ [] := by
  intro hnil
  have : a ∈ sortDedup l := mem_sortDedup.mpr h
  rw [hnil] at this
  exact List.not_mem_nil a this

theorem mem_adds_edges_of_mem {g : List Triple} {a : Triple} (ts : List Triple)
    (h : a ∈ g) : a ∈ adds_edges_to_graph g ts := by
  induction ts generalizing g with
  | nil => exact h
  | cons t rest ih =>
    show a ∈ adds_edges_to_graph (if t ∈ g then g else g ++ [t]) rest
    apply ih
    split
    · exact h
    · exact List.mem_append_left _ h

theorem mem_adds_edges_self {g : List Triple} {a : Triple} {ts : List Triple}
    (h : a ∈ ts) : a ∈ adds_edges_to_graph g ts := by
  induction ts generalizing g with
  | nil => cases h
  | cons t rest ih =>
    show a ∈ adds_edges_to_graph (if t ∈ g then g else g ++ [t]) rest
    rcases List.mem_cons.mp h with rfl | hrest
    · apply mem_adds_edges_of_mem
      split
      · assumption
      · exact List.mem_append_right _ (List.mem_singleton.mpr rfl)
    · exact ih hrest

theorem adds_edges_eq_of_subset {g : List Triple} {ts : List Triple}
    (h : ∀ t ∈ ts, t ∈ g) : adds_edges_to_graph g ts = g := by
  induction ts generalizing g with
  | nil => rfl
  | cons t rest ih =>
    show adds_edges_to_graph (if t ∈ g then g else g ++ [t]) rest = g
    rw [if_pos (h t (List.mem_cons_self t rest))]
    exact ih fun u hu => h u (List.mem_cons_of_mem t hu)

theorem mem_of_mem_remove_edges {g : List Triple} {a : Triple} {ts : List Triple}
    (h : a ∈ remove_edges_from_graph g ts) : a ∈ g := by
  induction ts generalizing g with
  | nil => exact h
  | cons t rest ih =>
    have := ih (g := g.filter (fun u => u ≠ t)) h
    exact (List.mem_filter.mp this).1

theorem not_mem_remove_edges {g : List Triple} {t : Triple} {ts : List Triple}
    (h : t ∈ ts) : t ∉ remove_edges_from_graph g ts := by
  induction ts generalizing g with
  | nil => cases h
  | cons u rest ih =>
    intro hmem
    rcases List.mem_cons.mp h with rfl | hrest
    · have hsub : t ∈ g.filter (fun v => v ≠ t) :=
        mem_of_mem_remove_edges (g := g.filter (fun v => v ≠ t)) hmem
      have := (List.mem_filter.mp hsub).2
      simp at this
    · exact ih hrest hmem

theorem remove_edges_eq_of_disjoint {g : List Triple} {ts : List Triple}
    (h : ∀ t ∈ ts, t ∉ g) : remove_edges_from_graph g ts = g := by
  induction ts generalizing g with
  | nil => rfl
  | cons t rest ih =>
    show remove_edges_from_graph (g.filter (fun u => u ≠ t)) rest = g
    have hg : g.filter (fun u => u ≠ t) = g := by
      rw [List.filter_eq_self]
      intro a ha
      simp only [ne_eq, decide_eq_true_eq]
      intro rfl_eq
      exact h t (List.mem_cons_self t rest) (rfl_eq ▸ ha)
    rw [hg]
    exact ih fun u hu => h u (List.mem_cons_of_mem t hu)

/-- Claim C6: bulk edge insertion and removal are idempotent: adding the
same triple list twice yields the same graph as adding it once (adding
pre-existing triples is a no-op), and removing the same triple list twice
yields the same graph as removing it once (removing absent triples is a
no-op).  Both operations are total Lean functions, so neither raises on
well-formed input. -/
theorem c6_add_remove_idempotent (g : List Triple) (ts : List Triple) :
    adds_edges_to_graph (adds_edges_to_graph g ts) ts = adds_edges_to_graph g ts ∧
    remove_edges_from_graph (remove_edges_from_graph g ts) ts
      = remove_edges_from_graph g ts := by
  constructor
  · exact adds_edges_eq_of_subset fun t ht => mem_adds_edges_self ht
  · exact remove_edges_eq_of_disjoint fun t ht => not_mem_remove_edges ht

theorem mem_ancStep_left {g : List Triple} {a : String} {s : List String}
    (h : a ∈ s) : a ∈ ancStep g s :=
  List.mem_append_left _ h

theorem mem_ancStep_super {g : List Triple} {a b : String} {s : List String}
    (ha : a ∈ s) (hb : b ∈ supers g a) : b ∈ ancStep g s :=
  List.mem_append_right _ (List.mem_flatMap.mpr ⟨a, ha, hb⟩)

theorem mem_iterate_of_mem {g : List Triple} {a : String} {s : List String}
    (n : Nat) (h : a ∈ s) : a ∈ (ancStep g)^[n] s := by
  induction n generalizing s with
  | zero => exact h
  | succ n ih =>
    rw [Function.iterate_succ_apply]
    exact ih (mem_ancStep_left h)

theorem mem_iterate_mono {g : List Triple} {a : String} {s : List String}
    {m n : Nat} (h : m ≤ n) (ha : a ∈ (ancStep g)^[m] s) :
    a ∈ (ancStep g)^[n] s := by
  induction n, h using Nat.le_induction with
  | base => exact ha
  | succ n hmn ih =>
    rw [Function.iterate_succ_apply']
    exact mem_ancStep_left ih

theorem mem_supers_of_triple {g : List Triple} {x y : String}
    (h : Triple.mk x rdfsSubClassOf y ∈ g) : y ∈ supers g x := by
  unfold supers
  rw [List.mem_flatMap]
  refine ⟨Triple.mk x rdfsSubClassOf y, h, ?_⟩
  simp

theorem mem_iterate_super {g : List Triple} {a b : String} {s : List String}
    {n : Nat} (ha : a ∈ (ancStep g)^[n] s) (hb : b ∈ supers g a) :
    b ∈ (ancStep g)^[n + 1] s := by
  rw [Function.iterate_succ_apply']
  exact mem_ancStep_super ha hb

/-- Claim C3: for every class set and graph, the modelled
`gets_class_ancestors` returns a duplicate-free, sorted (hence
deterministically ordered) result; each starting class (in normalized
form) is included in its own ancestor set; a two-step is-subclass-of chain
A to B to C starting at a supplied class puts A, B and C in the result;
and an empty class set yields the empty list. -/
theorem c3_ancestors (g : List Triple) (cs : List String) :
    (cs = [] → gets_class_ancestors g cs = []) ∧
    (gets_class_ancestors g cs).Nodup ∧
    List.Sorted strLeRel (gets_class_ancestors g cs) ∧
    (∀ c ∈ cs, normalizeClassId c ∈ gets_class_ancestors g cs) ∧
    (∀ A B C, A ∈ cs →
      Triple.mk (normalizeClassId A) rdfsSubClassOf B ∈ g →
      Triple.mk B rdfsSubClassOf C ∈ g →
      normalizeClassId A ∈ gets_class_ancestors g cs ∧
        B ∈ gets_class_ancestors g cs ∧ C ∈ gets_class_ancestors g cs) := by
  have hmem :
      ∀ a : String, cs ≠ [] →
        (a ∈ gets_class_ancestors g cs ↔
          a ∈ (ancStep g)^[g.length + 1] (cs.map normalizeClassId)) := by
    intro a hne
    rw [gets_class_ancestors, if_neg hne, mem_sortDedup]
  refine ⟨?_, ?_, ?_, ?_, ?_⟩
  · intro h
    rw [gets_class_ancestors, if_pos h]
  · by_cases hne : cs = []
    · rw [gets_class_ancestors, if_pos hne]
      exact List.nodup_nil
    · rw [gets_class_ancestors, if_neg hne]
      exact nodup_sortDedup _
  · by_cases hne : cs = []
    · rw [gets_class_ancestors, if_pos hne]
      exact List.sorted_nil
    · rw [gets_class_ancestors, if_neg hne]
      exact sorted_sortDedup _
  · intro c hc
    have hne : cs ≠ [] := List.ne_nil_of_mem hc
    rw [hmem _ hne]
    exact mem_iterate_of_mem _ (List.mem_map_of_mem _ hc)
  · intro A B C hA h1 h2
    have hne : cs ≠ [] := List.ne_nil_of_mem hA
    have hglen : 1 ≤ g.length := by
      cases g with
      | nil => cases h1
      | cons t rest => exact Nat.succ_le_succ (Nat.zero_le _)
    have hseed : normalizeClassId A ∈ (cs.map normalizeClassId) :=
      List.mem_map_of_mem _ hA
    have hB : B ∈ (ancStep g)^[1] (cs.map normalizeClassId) :=
      mem_iterate_super (mem_iterate_of_mem 0 hseed) (mem_supers_of_triple h1)
    have hC : C ∈ (ancStep g)^[2] (cs.map normalizeClassId) :=
      mem_iterate_super hB (mem_supers_of_triple h2)
    refine ⟨?_, ?_, ?_⟩
    · rw [hmem _ hne]
      exact mem_iterate_of_mem _ hseed
    · rw [hmem _ hne]
      exact mem_iterate_mono (by omega) hB
    · rw [hmem _ hne]
      exact mem_iterate_mono (by omega) hC

/-- Witness for C3: on the shipped two-step subclass chain seeded with
SO_0000348, all three classes of the chain are returned, and the empty
class set returns the empty list. -/
theorem c3_witness :
    normalizeClassId "http://purl.obolibrary.org/obo/SO_0000348" ∈
      gets_class_ancestors chainG ["http://purl.obolibrary.org/obo/SO_0000348"] ∧
    "http://purl.obolibrary.org/obo/SO_0000400" ∈
      gets_class_ancestors chainG ["http://purl.obolibrary.org/obo/SO_0000348"] ∧
    "http://purl.obolibrary.org/obo/SO_0000443" ∈
      gets_class_ancestors chainG ["http://purl.obolibrary.org/obo/SO_0000348"] ∧
    gets_class_ancestors chainG [] = [] := by
  have h :=
    (c3_ancestors chainG ["http://purl.obolibrary.org/obo/SO_0000348"]).2.2.2.2
      "http://purl.obolibrary.org/obo/SO_0000348"
      "http://purl.obolibrary.org/obo/SO_0000400"
      "http://purl.obolibrary.org/obo/SO_0000443"
      (by decide) (of_decide_eq_true rfl) (of_decide_eq_true rfl)
  exact ⟨h.1, h.2.1, h.2.2, (c3_ancestors chainG []).1 rfl⟩

/-- Counterexample for C2: on the shipped two-step subclass chain, the
bare (non-URI-shaped) identifier "SO_0000348" is not processed by
identity: the result differs from the identity-processing reading of the
spec, the bare string itself does not appear in the result, and the
silently resolved full OBO URI does. -/
theorem c2_counterexample :
    gets_class_ancestors chainG ["SO_0000348"] ≠
      gets_class_ancestors_by_identity chainG ["SO_0000348"] ∧
    "SO_0000348" ∉ gets_class_ancestors chainG ["SO_0000348"] ∧
    "http://purl.obolibrary.org/obo/SO_0000348" ∈
      gets_class_ancestors chainG ["SO_0000348"] :=
  ⟨of_decide_eq_true rfl, of_decide_eq_true rfl, of_decide_eq_true rfl⟩

theorem isHttpId_obo_append (c : String) : isHttpId (obo ++ c) = true := by
  unfold isHttpId
  rw [String.data_append, List.isPrefixOf_iff_prefix]
  exact List.IsPrefix.trans (of_decide_eq_true rfl : "http".data <+: obo.data)
    (List.prefix_append _ _)

/-- Claim C2, amended: a supplied class identifier that is not URI-shaped
is not processed by identity; `gets_class_ancestors` silently resolves it
by prepending the OBO namespace stem, so the traversal behaves exactly as
if the full OBO URI had been supplied. -/
theorem c2_bare_id_obo_resolved (g : List Triple) (c : String) (cs : List String)
    (h : isHttpId c = false) :
    gets_class_ancestors g (c :: cs) = gets_class_ancestors g ((obo ++ c) :: cs) := by
  have hn1 : normalizeClassId c = obo ++ c := by
    unfold normalizeClassId
    rw [h]
    simp
  have hn2 : normalizeClassId (obo ++ c) = obo ++ c := by
    unfold normalizeClassId
    rw [isHttpId_obo_append]
    simp
  rw [gets_class_ancestors, gets_class_ancestors,
    if_neg (List.cons_ne_nil c cs), if_neg (List.cons_ne_nil (obo ++ c) cs)]
  simp only [List.map_cons, hn1, hn2]

/-- Witness for the amended C2: "SO_0000348" is not URI-shaped and its
ancestor query on the shipped chain equals the query for its OBO-resolved
form. -/
theorem c2_witness :
    isHttpId "SO_0000348" = false ∧
    gets_class_ancestors chainG ["SO_0000348"] =
      gets_class_ancestors chainG [obo ++ "SO_0000348"] :=
  ⟨of_decide_eq_true rfl,
    c2_bare_id_obo_resolved chainG "SO_0000348" [] (of_decide_eq_true rfl)⟩

theorem addNode_keys_self (m : List (String × Nat)) (n : String) :
    n ∈ (addNode m n).map Prod.fst := by
  unfold addNode
  by_cases hn : n ∈ m.map Prod.fst
  · rw [if_pos hn]
    exact hn
  · rw [if_neg hn, List.map_append]
    exact List.mem_append_right _ (by simp)

theorem addNode_keys_mono {m : List (String × Nat)} {a : String} (n : String)
    (h : a ∈ m.map Prod.fst) : a ∈ (addNode m n).map Prod.fst := by
  unfold addNode
  split
  · exact h
  · rw [List.map_append]
    exact List.mem_append_left _ h

theorem addNode_keys_cases {m : List (String × Nat)} {a n : String}
    (h : a ∈ (addNode m n).map Prod.fst) : a = n ∨ a ∈ m.map Prod.fst := by
  unfold addNode at h
  by_cases hn : n ∈ m.map Prod.fst
  · rw [if_pos hn] at h
    exact Or.inr h
  · rw [if_neg hn, List.map_append] at h
    rcases List.mem_append.mp h with h1 | h1
    · exact Or.inr h1
    · simp only [List.map_cons, List.map_nil, List.mem_singleton] at h1
      exact Or.inl h1

theorem addNode_inv {m : List (String × Nat)} (n : String)
    (h1 : m.map Prod.snd = List.range m.length)
    (h2 : (m.map Prod.fst).Nodup) :
    (addNode m n).map Prod.snd = List.range (addNode m n).length ∧
      ((addNode m n).map Prod.fst).Nodup := by
  unfold addNode
  by_cases hn : n ∈ m.map Prod.fst
  · rw [if_pos hn]
    exact ⟨h1, h2⟩
  · rw [if_neg hn]
    refine ⟨?_, ?_⟩
    · rw [List.map_append, List.length_append, h1]
      simp [List.range_succ]
    · rw [List.map_append, List.nodup_append]
      refine ⟨h2, List.nodup_singleton n, ?_⟩
      intro a ha hb
      simp only [List.map_cons, List.map_nil, List.mem_singleton] at hb
      exact hn (hb ▸ ha)

theorem foldl_intMap_keys_mono {g : List Triple} {m : List (String × Nat)}
    {a : String} (h : a ∈ m.map Prod.fst) :
    a ∈ (g.foldl intMapStep m).map Prod.fst := by
  induction g generalizing m with
  | nil => exact h
  | cons t rest ih =>
    rw [List.foldl_cons]
    exact ih (addNode_keys_mono _ (addNode_keys_mono _ h))

theorem foldl_intMap_cover {g : List Triple} {m : List (String × Nat)}
    {t : Triple} (h : t ∈ g) :
    t.s ∈ (g.foldl intMapStep m).map Prod.fst ∧
      t.o ∈ (g.foldl intMapStep m).map Prod.fst := by
  induction g generalizing m with
  | nil => cases h
  | cons u rest ih =>
    rw [List.foldl_cons]
    rcases List.mem_cons.mp h with rfl | h1
    · constructor
      · exact foldl_intMap_keys_mono
          (addNode_keys_mono _ (addNode_keys_self m t.s))
      · exact foldl_intMap_keys_mono (addNode_keys_self _ t.o)
    · exact ih h1

theorem foldl_intMap_keys_source {g : List Triple} {m : List (String × Nat)}
    {a : String} (h : a ∈ (g.foldl intMapStep m).map Prod.fst) :
    a ∈ m.map Prod.fst ∨ a ∈ nodesOf g := by
  induction g generalizing m with
  | nil => exact Or.inl h
  | cons t rest ih =>
    rw [List.foldl_cons] at h
    rcases ih h with h1 | h1
    · rcases addNode_keys_cases h1 with rfl | h2
      · exact Or.inr (by simp [nodesOf])
      · rcases addNode_keys_cases h2 with rfl | h3
        · exact Or.inr (by simp [nodesOf])
        · exact Or.inl h3
    · refine Or.inr ?_
      unfold nodesOf at h1 ⊢
      rw [List.flatMap_cons]
      exact List.mem_append_right _ h1

theorem foldl_intMap_inv (g : List Triple) (m : List (String × Nat))
    (h1 : m.map Prod.snd = List.range m.length)
    (h2 : (m.map Prod.fst).Nodup) :
    (g.foldl intMapStep m).map Prod.snd
        = List.range (g.foldl intMapStep m).length ∧
      ((g.foldl intMapStep m).map Prod.fst).Nodup := by
  induction g generalizing m with
  | nil => exact ⟨h1, h2⟩
  | cons t rest ih =>
    rw [List.foldl_cons]
    have hs := addNode_inv t.s h1 h2
    have ho := addNode_inv t.o hs.1 hs.2
    exact ih _ ho.1 ho.2

theorem eq_of_map_nodup {β : Type} {f : String × Nat → β}
    {m : List (String × Nat)} (h : (m.map f).Nodup) {p q : String × Nat}
    (hp : p ∈ m) (hq : q ∈ m) (hf : f p = f q) : p = q := by
  induction m with
  | nil => cases hp
  | cons r rest ih =>
    rw [List.map_cons, List.nodup_cons] at h
    rcases List.mem_cons.mp hp with rfl | hp1
    · rcases List.mem_cons.mp hq with rfl | hq1
      · rfl
      · exact absurd (by rw [hf]; exact List.mem_map_of_mem f hq1) h.1
    · rcases List.mem_cons.mp hq with rfl | hq1
      · exact absurd (by rw [← hf]; exact List.mem_map_of_mem f hp1) h.1
      · exact ih h.2 hp1 hq1

/-- Claim C5: for every graph, the modelled integer map covers every node
that appears as subject or object of some triple; its keys all come from
the graph's node set; each node has exactly one integer; distinct nodes
receive distinct integers; and re-running the mapper on the same
unchanged graph reproduces identical assignments. -/
theorem c5_integer_map (g : List Triple) :
    (∀ t ∈ g, t.s ∈ (maps_node_ids_to_integers g).map Prod.fst ∧
      t.o ∈ (maps_node_ids_to_integers g).map Prod.fst) ∧
    (∀ n ∈ (maps_node_ids_to_integers g).map Prod.fst, n ∈ nodesOf g) ∧
    (∀ n k1 k2, (n, k1) ∈ maps_node_ids_to_integers g →
      (n, k2) ∈ maps_node_ids_to_integers g → k1 = k2) ∧
    (∀ n1 n2 k, (n1, k) ∈ maps_node_ids_to_integers g →
      (n2, k) ∈ maps_node_ids_to_integers g → n1 = n2) ∧
    maps_node_ids_to_integers g = maps_node_ids_to_integers g := by
  have hinv := foldl_intMap_inv g [] rfl List.nodup_nil
  unfold maps_node_ids_to_integers
  refine ⟨?_, ?_, ?_, ?_, rfl⟩
  · intro t ht
    exact foldl_intMap_cover ht
  · intro n hn
    rcases foldl_intMap_keys_source hn with h | h
    · cases h
    · exact h
  · intro n k1 k2 hk1 hk2
    have := eq_of_map_nodup hinv.2 hk1 hk2 rfl
    exact congrArg Prod.snd this
  · intro n1 n2 k hk1 hk2
    have hsnd : ((List.foldl intMapStep [] g).map Prod.snd).Nodup := by
      rw [hinv.1]
      exact List.nodup_range _
    have := eq_of_map_nodup hsnd hk1 hk2 rfl
    exact congrArg Prod.fst this

/-- Witness for C5: on the one-triple graph, both its subject and its
object receive integers, and every mapped key is a node of the graph. -/
theorem c5_witness :
    "a" ∈ (maps_node_ids_to_integers tripleG0).map Prod.fst ∧
    "b" ∈ (maps_node_ids_to_integers tripleG0).map Prod.fst ∧
    "a" ∈ nodesOf tripleG0 := by
  have h := (c5_integer_map tripleG0).1 ⟨"a", "p", "b"⟩ (of_decide_eq_true rfl)
  exact ⟨h.1, h.2, (c5_integer_map tripleG0).2.1 "a" h.1⟩

/-- Counterexample for C1: on the shipped subclass-class test input, the
claim's per-endpoint slot discipline fails.  Endpoint 2's kind tag is
"class", yet its value is not emitted under cls2 with ent2 left none as
the claim demands: the classifier returns cls2 = none (the class value
lands in cls1 instead). -/
theorem c1_counterexample :
    ¬ (∀ r, finds_node_type edgeInfo3 = Except.ok r →
        (edgeInfo3.n2 = "class" →
          r.cls2 = some (edgeInfo3.uri.getD 1 "" ++ edgeInfo3.edges.getD 1 "") ∧
          r.ent2 = none)) := by
  intro h
  have h2 := h ⟨some "http://purl.obolibrary.org/obo/DOID_0110035", none,
    some "https://www.ncbi.nlm.nih.gov/gene/2", none⟩ rfl rfl
  exact absurd h2.1 (of_decide_eq_true rfl)

/-- Claim C1, amended: for every well-formed edge_info with two endpoints,
each endpoint's value prefix + local_id is emitted under a class slot when
its kind tag indicates "class" and under an entity slot otherwise; but the
slots are filled in first-found order rather than per endpoint: class
values occupy cls1 then cls2 in endpoint order, entity values occupy ent1
then ent2 in endpoint order, and all unused slots are none. -/
theorem c1_slot_order (e : EdgeInfo) (u1 u2 a b : String)
    (he : e.edges = [a, b]) (hu : e.uri = [u1, u2]) :
    (e.n1 = "class" → e.n2 = "class" →
      finds_node_type e =
        Except.ok ⟨some (u1 ++ a), some (u2 ++ b), none, none⟩) ∧
    (e.n1 = "class" → e.n2 ≠ "class" →
      finds_node_type e =
        Except.ok ⟨some (u1 ++ a), none, some (u2 ++ b), none⟩) ∧
    (e.n1 ≠ "class" → e.n2 = "class" →
      finds_node_type e =
        Except.ok ⟨some (u2 ++ b), none, some (u1 ++ a), none⟩) ∧
    (e.n1 ≠ "class" → e.n2 ≠ "class" →
      finds_node_type e =
        Except.ok ⟨none, none, some (u1 ++ a), some (u2 ++ b)⟩) := by
  refine ⟨?_, ?_, ?_, ?_⟩ <;> intro h1 h2 <;>
    simp [finds_node_type, clsVals, entVals, endpointPairs, he, hu, h1, h2]

/-- Witness for the amended C1: the class-class and subclass-class inputs
of the shipped test produce exactly the outputs the test expects. -/
theorem c1_witness :
    finds_node_type edgeInfo5 =
      Except.ok ⟨some "http://purl.obolibrary.org/obo/DOID_162",
        some "http://purl.obolibrary.org/obo/DOID_0110035", none, none⟩ ∧
    finds_node_type edgeInfo3 =
      Except.ok ⟨some "http://purl.obolibrary.org/obo/DOID_0110035", none,
        some "https://www.ncbi.nlm.nih.gov/gene/2", none⟩ := by
  constructor
  · exact (c1_slot_order edgeInfo5 "http://purl.obolibrary.org/obo/"
      "http://purl.obolibrary.org/obo/" "DOID_162" "DOID_0110035" rfl rfl).1 rfl rfl
  · exact (c1_slot_order edgeInfo3 "https://www.ncbi.nlm.nih.gov/gene/"
      "http://purl.obolibrary.org/obo/" "2" "DOID_0110035" rfl rfl).2.2.1
      (of_decide_eq_true rfl) rfl

/-- Claim C8: ontology-file-consuming operations raise distinct errors
for distinct failure modes: a non-string file path raises a TypeError, a
missing file raises an OSError, an empty ontology file raises a
ValueError rather than being treated as an empty graph, and a well-formed
existing file raises none of these; the three error classes are pairwise
distinct. -/
theorem c8_statistics_errors (fs : String → OntFile) (p : String)
    (ps : List String) (g : List Triple) :
    gets_ontology_statistics (PyArg.listArg ps) fs = Except.error PyErr.typeErr ∧
    (fs p = OntFile.absent →
      gets_ontology_statistics (PyArg.strArg p) fs = Except.error PyErr.osErr) ∧
    (fs p = OntFile.emptyFile →
      gets_ontology_statistics (PyArg.strArg p) fs = Except.error PyErr.valueErr) ∧
    (fs p = OntFile.wellFormed g →
      gets_ontology_statistics (PyArg.strArg p) fs =
        Except.ok ("Graph Stats: " ++ toString g.length ++ " triples")) ∧
    (PyErr.typeErr ≠ PyErr.osErr ∧ PyErr.typeErr ≠ PyErr.valueErr ∧
      PyErr.osErr ≠ PyErr.valueErr) := by
  refine ⟨rfl, ?_, ?_, ?_, by decide, by decide, by decide⟩ <;>
    intro h <;> simp [gets_ontology_statistics, h]

/-- Witness for C8: on the test-fixture file system, the missing file,
the empty file, the good file and the non-string argument each behave as
claimed. -/
theorem c8_witness :
    gets_ontology_statistics (PyArg.strArg "sop_with_imports.owl") demoFs =
      Except.error PyErr.osErr ∧
    gets_ontology_statistics (PyArg.strArg "empty_hp_with_imports.owl") demoFs =
      Except.error PyErr.valueErr ∧
    gets_ontology_statistics (PyArg.strArg "so_with_imports.owl") demoFs =
      Except.ok ("Graph Stats: " ++ toString tripleG0.length ++ " triples") ∧
    gets_ontology_statistics (PyArg.listArg ["empty_hp_with_imports.owl"]) demoFs =
      Except.error PyErr.typeErr := by
  refine ⟨?_, ?_, ?_, ?_⟩
  · exact (c8_statistics_errors demoFs "sop_with_imports.owl" [] tripleG0).2.1 rfl
  · exact (c8_statistics_errors demoFs "empty_hp_with_imports.owl" [] tripleG0).2.2.1 rfl
  · exact (c8_statistics_errors demoFs "so_with_imports.owl" [] tripleG0).2.2.2.1 rfl
  · exact (c8_statistics_errors demoFs ""
      ["empty_hp_with_imports.owl"] tripleG0).1

/-- Claim C9: in `gets_json_results_from_api_call`, when neither the
initial sleep nor the opener construction raises an HTTPError (neither
performs an HTTP request), the except-HTTPError branch never runs, and an
HTTPError raised by the actual fetch propagates to the caller with no
pause-and-retry. -/
theorem c9_retry_branch_unreachable (env : ApiEnv)
    (hs : env.sleepShort = Except.ok ())
    (hb : env.buildOpener = Except.ok ()) :
    (gets_json_results_from_api_call env).1 = false ∧
    (gets_json_results_from_api_call env).2 = env.fetch ∧
    (∀ e, env.fetch = Except.error e →
      (gets_json_results_from_api_call env).2 = Except.error e) := by
  unfold gets_json_results_from_api_call
  rw [hs, hb]
  exact ⟨rfl, rfl, fun e he => by rw [he]⟩

/-- Witness for C9: with a benign sleep and opener and a fetch failing
with HTTP 500, the except branch does not run and the error propagates
unchanged. -/
theorem c9_witness :
    (gets_json_results_from_api_call apiEnv0).1 = false ∧
    (gets_json_results_from_api_call apiEnv0).2 = Except.error ⟨500⟩ := by
  have h := c9_retry_branch_unreachable apiEnv0 rfl rfl
  exact ⟨h.1, h.2.2 ⟨500⟩ rfl⟩

theorem sliceStep_eq_drop {n : Nat} (l : List Nat) :
    ∀ c, sliceStep n l c = sliceStep n (l.drop c) 0 := by
  induction l with
  | nil => intro c; simp [sliceStep]
  | cons a rest ih =>
    intro c
    cases c with
    | zero => rfl
    | succ c =>
      show sliceStep n rest c = sliceStep n ((a :: rest).drop (c + 1)) 0
      rw [List.drop_succ_cons]
      exact ih c

theorem mem_of_mem_sliceStep {n : Nat} {l : List Nat} {c x : Nat}
    (h : x ∈ sliceStep n l c) : x ∈ l := by
  induction l generalizing c with
  | nil => simp [sliceStep] at h
  | cons a rest ih =>
    cases c with
    | zero =>
      have h2 : x ∈ a :: sliceStep n rest (n - 1) := h
      rcases List.mem_cons.mp h2 with rfl | h3
      · exact List.mem_cons_self _ _
      · exact List.mem_cons_of_mem _ (ih h3)
    | succ c =>
      have h2 : x ∈ sliceStep n rest c := h
      exact List.mem_cons_of_mem _ (ih h2)

theorem sliceStep_mem_of_index {n : Nat} (hn : 0 < n) :
    ∀ (k : Nat) (l : List Nat) {p : Nat},
      l[k * n]? = some p → p ∈ sliceStep n l 0 := by
  intro k
  induction k with
  | zero =>
    intro l p h
    cases l with
    | nil => simp at h
    | cons a rest =>
      rw [Nat.zero_mul] at h
      simp only [List.getElem?_cons_zero, Option.some.injEq] at h
      subst h
      exact List.mem_cons_self _ _
  | succ k ih =>
    intro l p h
    cases l with
    | nil => simp at h
    | cons a rest =>
      rw [Nat.succ_mul, show k * n + n = (k * n + (n - 1)) + 1 by omega,
        List.getElem?_cons_succ] at h
      have h2 : (rest.drop (n - 1))[k * n]? = some p := by
        rw [List.getElem?_drop, show (n - 1) + k * n = k * n + (n - 1) by omega]
        exact h
      have h3 := ih (rest.drop (n - 1)) h2
      rw [← sliceStep_eq_drop] at h3
      exact List.mem_cons_of_mem a h3

theorem batchesE_ok {pc : Nat} {bs : List (List Nat)}
    (hok : batchesE pc = Except.ok bs) :
    stride pc ≠ 0 ∧ bs = (List.range 1000).map (fun i => pyBatch pc i) := by
  unfold batchesE at hok
  by_cases h : stride pc = 0
  · rw [if_pos h] at hok
    cases hok
  · rw [if_neg h] at hok
    injection hok with h2
    exact ⟨h, h2.symm⟩

theorem three_le_of_stride_ne_zero {pc : Nat} (h : stride pc ≠ 0) : 3 ≤ pc := by
  by_contra hlt
  apply h
  have h2 : pc - 2 = 0 := by omega
  unfold stride totalPages
  rw [h2]
  rfl

theorem stride_2001 : stride 2001 = 2 := by
  unfold stride totalPages
  rw [List.length_range']
  decide

theorem batchesE_2001 :
    batchesE 2001 =
      Except.ok ((List.range 1000).map (fun i => pyBatch 2001 i)) := by
  unfold batchesE
  rw [if_neg (by rw [stride_2001]; decide)]

theorem pyBatch_2001 (i : Nat) :
    pyBatch 2001 i = sliceStep 2 ((List.range' 1 1999).drop i) 0 := by
  unfold pyBatch totalPages
  rw [stride_2001]

/-- Counterexample for C4: with pageCount = 2001 the computed stride is
round(1999/1000) = 2, and page 3 belongs to both batch 0 and batch 2 of
the 1000 slices, so the batches are not pairwise disjoint and the split
is not a partition of the page range. -/
theorem c4_counterexample :
    batchesE 2001 =
      Except.ok ((List.range 1000).map (fun i => pyBatch 2001 i)) ∧
    3 ∈ pyBatch 2001 0 ∧ 3 ∈ pyBatch 2001 2 := by
  refine ⟨batchesE_2001, ?_, ?_⟩
  · rw [pyBatch_2001]
    exact of_decide_eq_true rfl
  · rw [pyBatch_2001]
    exact of_decide_eq_true rfl

/-- Claim C4, amended: for every page count on which the batch
construction succeeds (stride nonzero), exactly 1000 batches are built;
and whenever the stride is at most 1000, the batches jointly cover the
page range; but pages may be assigned to several batches (the split is
not disjoint in general). -/
theorem c4_batches (pageCount : Nat) (bs : List (List Nat))
    (hok : batchesE pageCount = Except.ok bs) :
    bs.length = 1000 ∧
    (stride pageCount ≤ 1000 →
      ∀ p ∈ totalPages pageCount,
        ∃ i, i < 1000 ∧ ∃ batch, bs[i]? = some batch ∧ p ∈ batch) := by
  obtain ⟨hn, rfl⟩ := batchesE_ok hok
  refine ⟨by simp, ?_⟩
  intro hle p hp
  obtain ⟨j, hj⟩ := List.mem_iff_getElem?.mp hp
  have hnpos : 0 < stride pageCount := Nat.pos_of_ne_zero hn
  have hlt : j % stride pageCount < 1000 :=
    lt_of_lt_of_le (Nat.mod_lt _ hnpos) hle
  refine ⟨j % stride pageCount, hlt,
    pyBatch pageCount (j % stride pageCount), ?_, ?_⟩
  · rw [List.getElem?_map, List.getElem?_range hlt]
    rfl
  · unfold pyBatch
    apply sliceStep_mem_of_index hnpos (j / stride pageCount)
    rw [List.getElem?_drop, Nat.mod_add_div']
    exact hj

/-- Witness for the amended C4: at pageCount = 2001 the construction
succeeds, produces exactly 1000 batches, and the stride condition of the
coverage part holds. -/
theorem c4_witness :
    ((List.range 1000).map (fun i => pyBatch 2001 i)).length = 1000 ∧
    stride 2001 ≤ 1000 := by
  refine ⟨(c4_batches 2001
    ((List.range 1000).map (fun i => pyBatch 2001 i)) batchesE_2001).1, ?_⟩
  rw [stride_2001]
  decide

/-- Claim C10: the batch loop iterates over range(0, len(batches) - 1),
so the final batch (index 999) is never processed or written; and since
the page range is range(1, pageCount - 1) and each request asks for page
p + 1, every fetched page number lies in [2, pageCount - 1], so the
boundary pages 1 and pageCount are never fetched into any output batch
file. -/
theorem c10_boundaries (pageCount : Nat) (bs : List (List Nat))
    (hok : batchesE pageCount = Except.ok bs) :
    bs.length = 1000 ∧
    processedIdxs bs = List.range (bs.length - 1) ∧
    (bs.length - 1) ∉ processedIdxs bs ∧
    (∀ q ∈ fetchedPagesList bs, 2 ≤ q ∧ q ≤ pageCount - 1) ∧
    1 ∉ fetchedPagesList bs ∧
    pageCount ∉ fetchedPagesList bs := by
  obtain ⟨hn, rfl⟩ := batchesE_ok hok
  have hpc := three_le_of_stride_ne_zero hn
  have hbound : ∀ q ∈ fetchedPagesList
      ((List.range 1000).map (fun i => pyBatch pageCount i)),
      2 ≤ q ∧ q ≤ pageCount - 1 := by
    intro q hq
    unfold fetchedPagesList at hq
    rw [List.mem_flatMap] at hq
    obtain ⟨b, hb, hq2⟩ := hq
    rw [List.mem_map] at hq2
    obtain ⟨p, hp, rfl⟩ := hq2
    have hp2 : p ∈ totalPages pageCount := by
      rw [List.getD_eq_getElem?_getD] at hp
      cases hmb : ((List.range 1000).map (fun i => pyBatch pageCount i))[b]? with
      | none =>
        rw [hmb] at hp
        simp at hp
      | some batch =>
        rw [hmb] at hp
        simp only [Option.getD_some] at hp
        rw [List.getElem?_map] at hmb
        cases hrb : (List.range 1000)[b]? with
        | none =>
          rw [hrb] at hmb
          cases hmb
        | some i =>
          rw [hrb] at hmb
          simp only [Option.map_some', Option.some.injEq] at hmb
          rw [← hmb] at hp
          unfold pyBatch at hp
          exact List.drop_subset _ _ (mem_of_mem_sliceStep hp)
    rw [totalPages, List.mem_range'] at hp2
    obtain ⟨i, hi, rfl⟩ := hp2
    omega
  refine ⟨by simp, rfl, ?_, hbound, ?_, ?_⟩
  · unfold processedIdxs
    simp
  · intro h1
    have := hbound 1 h1
    omega
  · intro h2
    have := hbound pageCount h2
    omega

/-- Witness for C10: at pageCount = 2001, there are 1000 batches, the
last batch index is not processed, and neither boundary page (1 and
2001) is ever fetched. -/
theorem c10_witness :
    ((List.range 1000).map (fun i => pyBatch 2001 i)).length = 1000 ∧
    (((List.range 1000).map (fun i => pyBatch 2001 i)).length - 1) ∉
      processedIdxs ((List.range 1000).map (fun i => pyBatch 2001 i)) ∧
    1 ∉ fetchedPagesList ((List.range 1000).map (fun i => pyBatch 2001 i)) ∧
    2001 ∉ fetchedPagesList ((List.range 1000).map (fun i => pyBatch 2001 i)) := by
  have h := c10_boundaries 2001
    ((List.range 1000).map (fun i => pyBatch 2001 i)) batchesE_2001
  exact ⟨h.1, h.2.2.1, h.2.2.2.2.1, h.2.2.2.2.2⟩

theorem mem_nbrs_iff {g : List Triple} {x a : String} :
    a ∈ nbrs g x ↔ ∃ t ∈ g, (t.s = x ∧ t.o = a) ∨ (t.o = x ∧ t.s = a) := by
  unfold nbrs
  rw [List.mem_flatMap]
  constructor
  · rintro ⟨t, ht, hmem⟩
    refine ⟨t, ht, ?_⟩
    rcases List.mem_append.mp hmem with h | h
    · by_cases hs : t.s = x
      · rw [if_pos hs] at h
        simp only [List.mem_singleton] at h
        exact Or.inl ⟨hs, h.symm⟩
      · rw [if_neg hs] at h
        simp at h
    · by_cases ho : t.o = x
      · rw [if_pos ho] at h
        simp only [List.mem_singleton] at h
        exact Or.inr ⟨ho, h.symm⟩
      · rw [if_neg ho] at h
        simp at h
  · rintro ⟨t, ht, ⟨h1, h2⟩ | ⟨h1, h2⟩⟩
    · refine ⟨t, ht, List.mem_append.mpr (Or.inl ?_)⟩
      rw [if_pos h1, h2]
      exact List.mem_singleton.mpr rfl
    · refine ⟨t, ht, List.mem_append.mpr (Or.inr ?_)⟩
      rw [if_pos h1, h2]
      exact List.mem_singleton.mpr rfl

theorem nbrs_symm {g : List Triple} {x y : String} (h : y ∈ nbrs g x) :
    x ∈ nbrs g y := by
  rw [mem_nbrs_iff] at h ⊢
  obtain ⟨t, ht, hc⟩ := h
  refine ⟨t, ht, ?_⟩
  rcases hc with ⟨h1, h2⟩ | ⟨h1, h2⟩
  · exact Or.inr ⟨h2, h1⟩
  · exact Or.inl ⟨h2, h1⟩

theorem mem_nodes_of_mem_nbrs {g : List Triple} {x a : String}
    (h : a ∈ nbrs g x) : a ∈ nodesOf g := by
  rw [mem_nbrs_iff] at h
  obtain ⟨t, ht, hc⟩ := h
  unfold nodesOf
  rw [List.mem_flatMap]
  refine ⟨t, ht, ?_⟩
  rcases hc with ⟨_, h2⟩ | ⟨_, h2⟩
  · rw [← h2]
    simp
  · rw [← h2]
    simp

theorem mem_undirStep_iff {g : List Triple} {s : List String} {a : String} :
    a ∈ undirStep g s ↔ a ∈ s ∨ ∃ b ∈ s, a ∈ nbrs g b := by
  unfold undirStep
  rw [List.mem_append, List.mem_flatMap]

theorem mem_undirStep_left {g : List Triple} {s : List String} {a : String}
    (h : a ∈ s) : a ∈ undirStep g s :=
  List.mem_append_left _ h

theorem mem_uiter_of_mem {g : List Triple} {a : String} {s : List String}
    (n : Nat) (h : a ∈ s) : a ∈ (undirStep g)^[n] s := by
  induction n generalizing s with
  | zero => exact h
  | succ n ih =>
    rw [Function.iterate_succ_apply]
    exact ih (mem_undirStep_left h)

theorem reach_of_mem_uiter {g : List Triple} {x : String} :
    ∀ {n : Nat} {a : String}, a ∈ (undirStep g)^[n] [x] → Reach g x a := by
  intro n
  induction n with
  | zero =>
    intro a h
    rw [Function.iterate_zero_apply, List.mem_singleton] at h
    subst h
    exact Reach.refl _
  | succ n ih =>
    intro a h
    rw [Function.iterate_succ_apply'] at h
    rcases mem_undirStep_iff.mp h with h1 | ⟨b, hb, h2⟩
    · exact ih h1
    · exact Reach.tail (ih hb) h2

theorem reach_trans {g : List Triple} {x y z : String}
    (h1 : Reach g x y) (h2 : Reach g y z) : Reach g x z := by
  induction h2 with
  | refl => exact h1
  | tail _ hn ih => exact Reach.tail ih hn

theorem reach_symm {g : List Triple} {x y : String} (h : Reach g x y) :
    Reach g y x := by
  induction h with
  | refl => exact Reach.refl _
  | tail _ hn ih =>
    exact reach_trans (Reach.tail (Reach.refl _) (nbrs_symm hn)) ih

theorem uiter_subset_nodes {g : List Triple} {x : String}
    (hx : x ∈ nodesOf g) :
    ∀ (k : Nat) (a : String), a ∈ (undirStep g)^[k] [x] → a ∈ nodesOf g := by
  intro k
  induction k with
  | zero =>
    intro a ha
    rw [Function.iterate_zero_apply, List.mem_singleton] at ha
    exact ha ▸ hx
  | succ k ih =>
    intro a ha
    rw [Function.iterate_succ_apply'] at ha
    rcases mem_undirStep_iff.mp ha with h1 | ⟨b, hb, h2⟩
    · exact ih a h1
    · exact mem_nodes_of_mem_nbrs h2

theorem nodesOf_length (g : List Triple) : (nodesOf g).length = 2 * g.length := by
  induction g with
  | nil => rfl
  | cons t rest ih =>
    unfold nodesOf at ih ⊢
    rw [List.flatMap_cons, List.length_append, ih]
    simp
    omega

theorem undirStep_toFinset_congr {g : List Triple} {s t : List String}
    (h : s.toFinset = t.toFinset) :
    (undirStep g s).toFinset = (undirStep g t).toFinset := by
  have hm : ∀ b, b ∈ s ↔ b ∈ t := fun b => by
    rw [← List.mem_toFinset, h, List.mem_toFinset]
  ext a
  simp only [List.mem_toFinset]
  rw [mem_undirStep_iff, mem_undirStep_iff]
  constructor
  · rintro (h1 | ⟨b, hb, h2⟩)
    · exact Or.inl ((hm a).mp h1)
    · exact Or.inr ⟨b, (hm b).mp hb, h2⟩
  · rintro (h1 | ⟨b, hb, h2⟩)
    · exact Or.inl ((hm a).mpr h1)
    · exact Or.inr ⟨b, (hm b).mpr hb, h2⟩

theorem uiterF_mono (g : List Triple) (x : String) (k : Nat) :
    uiterF g x k ⊆ uiterF g x (k + 1) := by
  intro a ha
  rw [uiterF, List.mem_toFinset] at ha ⊢
  rw [Function.iterate_succ_apply']
  exact mem_undirStep_left ha

theorem uiterF_stab {g : List Triple} {x : String} {k : Nat}
    (h : uiterF g x (k + 1) = uiterF g x k) :
    ∀ j, k ≤ j → uiterF g x j = uiterF g x k := by
  intro j hj
  induction j, hj using Nat.le_induction with
  | base => rfl
  | succ j hkj ih =>
    have hc := undirStep_toFinset_congr (g := g)
      (s := (undirStep g)^[j] [x]) (t := (undirStep g)^[k] [x]) ih
    calc uiterF g x (j + 1)
        = ((undirStep g) ((undirStep g)^[j] [x])).toFinset := by
          rw [uiterF, Function.iterate_succ_apply']
      _ = ((undirStep g) ((undirStep g)^[k] [x])).toFinset := hc
      _ = uiterF g x (k + 1) := by rw [uiterF, Function.iterate_succ_apply']
      _ = uiterF g x k := h

theorem uiterF_card_zero (g : List Triple) (x : String) :
    (uiterF g x 0).card = 1 := by
  simp [uiterF]

theorem uiterF_fix (g : List Triple) (x : String) (hx : x ∈ nodesOf g) :
    uiterF g x (2 * g.length + 1) = uiterF g x (2 * g.length) := by
  by_cases hex : ∃ k < 2 * g.length, uiterF g x (k + 1) = uiterF g x k
  · obtain ⟨k, hk, hfix⟩ := hex
    have h1 := uiterF_stab hfix (2 * g.length) (by omega)
    have h2 := uiterF_stab hfix (2 * g.length + 1) (by omega)
    rw [h1, h2]
  · exfalso
    push_neg at hex
    have hgrow : ∀ k, k ≤ 2 * g.length → k + 1 ≤ (uiterF g x k).card := by
      intro k
      induction k with
      | zero =>
        intro _
        have := uiterF_card_zero g x
        omega
      | succ k ih =>
        intro hk1
        have hne := hex k (by omega)
        have hss : uiterF g x k ⊂ uiterF g x (k + 1) :=
          Finset.ssubset_iff_subset_ne.mpr
            ⟨uiterF_mono g x k, fun h => hne h.symm⟩
        have hlt := Finset.card_lt_card hss
        have hle := ih (by omega)
        omega
    have hcard := hgrow (2 * g.length) (le_refl _)
    have hsub : uiterF g x (2 * g.length) ⊆ (nodesOf g).toFinset := by
      intro a ha
      rw [List.mem_toFinset]
      rw [uiterF, List.mem_toFinset] at ha
      exact uiter_subset_nodes hx _ a ha
    have hle := Finset.card_le_card hsub
    have hlen := List.toFinset_card_le (nodesOf g)
    rw [nodesOf_length] at hlen
    omega

theorem uiter_closed {g : List Triple} {x : String} (hx : x ∈ nodesOf g)
    {a b : String} (ha : a ∈ comp g x) (hb : b ∈ nbrs g a) : b ∈ comp g x := by
  have hfix := uiterF_fix g x hx
  have hb1 : b ∈ (undirStep g)^[2 * g.length + 1] [x] := by
    rw [Function.iterate_succ_apply']
    exact mem_undirStep_iff.mpr (Or.inr ⟨a, ha, hb⟩)
  have hb2 : b ∈ uiterF g x (2 * g.length + 1) := by
    rw [uiterF, List.mem_toFinset]
    exact hb1
  rw [hfix, uiterF, List.mem_toFinset] at hb2
  exact hb2

theorem mem_comp_of_reach {g : List Triple} {x a : String}
    (hx : x ∈ nodesOf g) (h : Reach g x a) : a ∈ comp g x := by
  induction h with
  | refl => exact mem_uiter_of_mem _ (List.mem_singleton.mpr rfl)
  | tail _ hn ih => exact uiter_closed hx ih hn

theorem mem_comp_iff_reach {g : List Triple} {x : String}
    (hx : x ∈ nodesOf g) {a : String} : a ∈ comp g x ↔ Reach g x a :=
  ⟨fun h => reach_of_mem_uiter h, mem_comp_of_reach hx⟩

theorem comp_eq_of_reach {g : List Triple} {x y : String}
    (hx : x ∈ nodesOf g) (hy : y ∈ nodesOf g) (h : Reach g x y) :
    sortDedup (comp g x) = sortDedup (comp g y) := by
  apply sortDedup_eq_of_mem_iff
  intro a
  rw [mem_comp_iff_reach hx, mem_comp_iff_reach hy]
  constructor
  · intro hxa
    exact reach_trans (reach_symm h) hxa
  · intro hya
    exact reach_trans h hya

theorem mem_cc_iff {g : List Triple} {c : List String} :
    c ∈ connected_components g ↔
      ∃ x ∈ nodesOf g, c = sortDedup (comp g x) := by
  unfold connected_components
  rw [List.mem_dedup, List.mem_map]
  constructor
  · rintro ⟨x, hx, rfl⟩
    exact ⟨x, hx, rfl⟩
  · rintro ⟨x, hx, rfl⟩
    exact ⟨x, hx, rfl⟩

/-- Claim C7: the modelled `connected_components` returns a partition of
the graph's node set into weakly-connected components (edge direction
ignored): every node lies in some returned set, every returned set
contains only graph nodes, distinct returned sets are disjoint, every
returned set is non-empty and is exactly an undirected-reachability
class of each of its members; and the two-disjoint-edges graph with
edges (a,b) and (c,d) yields exactly the two components [a, b] and
[c, d]. -/
theorem c7_connected_components (g : List Triple) :
    (∀ x ∈ nodesOf g, ∃ c ∈ connected_components g, x ∈ c) ∧
    (∀ c ∈ connected_components g, ∀ y ∈ c, y ∈ nodesOf g) ∧
    (∀ c1 ∈ connected_components g, ∀ c2 ∈ connected_components g,
      c1 ≠ c2 → ∀ y, y ∈ c1 → y ∉ c2) ∧
    (∀ c ∈ connected_components g, c ≠ []) ∧
    (∀ c ∈ connected_components g, ∀ y ∈ c, ∀ z, (z ∈ c ↔ Reach g y z)) ∧
    connected_components twoEdgeG = [["a", "b"], ["c", "d"]] := by
  refine ⟨?_, ?_, ?_, ?_, ?_, ?_⟩
  · intro x hx
    refine ⟨sortDedup (comp g x), mem_cc_iff.mpr ⟨x, hx, rfl⟩, ?_⟩
    exact mem_sortDedup.mpr (mem_uiter_of_mem _ (List.mem_singleton.mpr rfl))
  · intro c hc y hy
    obtain ⟨x, hx, rfl⟩ := mem_cc_iff.mp hc
    exact uiter_subset_nodes hx _ y (mem_sortDedup.mp hy)
  · intro c1 hc1 c2 hc2 hne y hy1 hy2
    obtain ⟨x1, hx1, rfl⟩ := mem_cc_iff.mp hc1
    obtain ⟨x2, hx2, rfl⟩ := mem_cc_iff.mp hc2
    have hr1 : Reach g x1 y :=
      (mem_comp_iff_reach hx1).mp (mem_sortDedup.mp hy1)
    have hr2 : Reach g x2 y :=
      (mem_comp_iff_reach hx2).mp (mem_sortDedup.mp hy2)
    exact hne (comp_eq_of_reach hx1 hx2 (reach_trans hr1 (reach_symm hr2)))
  · intro c hc
    obtain ⟨x, hx, rfl⟩ := mem_cc_iff.mp hc
    exact sortDedup_ne_nil_of_mem
      (mem_uiter_of_mem _ (List.mem_singleton.mpr rfl))
  · intro c hc y hy z
    obtain ⟨x, hx, rfl⟩ := mem_cc_iff.mp hc
    have hxy : Reach g x y :=
      (mem_comp_iff_reach hx).mp (mem_sortDedup.mp hy)
    constructor
    · intro hz
      exact reach_trans (reach_symm hxy)
        ((mem_comp_iff_reach hx).mp (mem_sortDedup.mp hz))
    · intro hyz
      exact mem_sortDedup.mpr
        ((mem_comp_iff_reach hx).mpr (reach_trans hxy hyz))
  · exact of_decide_eq_true rfl

/-- Witness for C7: on the two-disjoint-edges graph the components are
exactly [a, b] and [c, d], and the member a of the first component is a
node of the graph. -/
theorem c7_witness :
    connected_components twoEdgeG = [["a", "b"], ["c", "d"]] ∧
    "a" ∈ nodesOf twoEdgeG := by
  have hcc := (c7_connected_components twoEdgeG).2.2.2.2.2
  refine ⟨hcc, (c7_connected_components twoEdgeG).2.1 ["a", "b"] ?_ "a" ?_⟩
  · rw [hcc]
    exact List.mem_cons_self _ _
  · exact List.mem_cons_self _ _

end PKT
